import Mathlib

/-!
Verification development for the t-rex MVT encoding core
(`src/t-rex-core/src/mvt/tile.rs` and
`src/t-rex-core/src/datasource/postgis_fields.rs`).

World coordinates (`f64` in the source) are modelled as rationals; every
concrete input used in a theorem below is exactly representable as an `f64`
and all arithmetic performed on it by the source is exact, so the rational
model agrees with the floating-point computation at those inputs.
Machine integers are modelled as `Int`/`Nat` with explicit wrapping,
truncation or saturation where the source relies on it.
-/

unseal Rat.add Rat.mul Rat.sub Rat.inv

/-! ## Machine-integer primitives -/

/-- Truncation of a rational toward zero: the rounding performed by Rust's
float-to-integer `as` cast. -/
def ratTrunc (q : ℚ) : Int :=
  if q < 0 then ⌈q⌉ else ⌊q⌋

/-- Rust `f64 as i32`: truncate toward zero, saturating at the `i32` range
bounds (`tile.rs` lines 54-55). -/
def ratToI32 (q : ℚ) : Int :=
  max (-(2 ^ 31)) (min (2 ^ 31 - 1) (ratTrunc q))

/-- Rust `u32 as i32`: reinterpret the low 32 bits as a signed value
(`tile.rs` line 58). -/
def u32AsI32 (n : Nat) : Int :=
  if n % 2 ^ 32 < 2 ^ 31 then (n % 2 ^ 32 : Int) else (n % 2 ^ 32 : Int) - 2 ^ 32

/-- Rust `i32::saturating_sub`: subtraction clamped to the `i32` range
(`tile.rs` line 58). -/
def i32SatSub (a b : Int) : Int :=
  max (-(2 ^ 31)) (min (2 ^ 31 - 1) (a - b))

/-! ## World-space geometry model

The geometry types come from `core::geom` (`t-rex-core/src/core/geom.rs`,
outside `src/`): plain records of 2-D points, matching the variants matched
on in `tile.rs`. -/

/-- World-space point (`geom::Point`, coordinates `f64`). -/
structure GPoint where
  x : ℚ
  y : ℚ
deriving DecidableEq

/-- World-space line string (`geom::LineString`). -/
structure GLineString where
  points : List GPoint
deriving DecidableEq

/-- World-space polygon: an ordered sequence of rings (`geom::Polygon`). -/
structure GPolygon where
  rings : List GLineString
deriving DecidableEq

/-- World-space geometry union (`geom::GeometryType`): the seven variants
matched in `tile.rs` (`mvt_field_type`, `encode_geom`). -/
inductive GeometryType where
  | point (g : GPoint)
  | lineString (g : GLineString)
  | polygon (g : GPolygon)
  | multiPoint (points : List GPoint)
  | multiLineString (lines : List GLineString)
  | multiPolygon (polygons : List GPolygon)
  | geometryCollection (geometries : List GeometryType)

/-- Tile extent in world coordinates (`core::grid::Extent`). -/
structure Extent where
  minx : ℚ
  miny : ℚ
  maxx : ℚ
  maxy : ℚ
deriving DecidableEq

/-! ## Screen projector (`tile.rs` lines 49-164) -/

/-- Screen-space point with `i32` pixel coordinates (`screen::Point`). -/
structure SPoint where
  x : Int
  y : Int
deriving DecidableEq

/-- `ScreenGeom<geom::Point> for screen::Point::from_geom`
(`tile.rs` lines 49-62): affine map into pixel space, `as i32` cast
(truncation toward zero), then optional `reverse_y` flip implemented with
`i32::saturating_sub`. -/
def screenPointFromGeom (extent : Extent) (reverseY : Bool) (tileSize : Nat)
    (p : GPoint) : SPoint :=
  let xSpan := extent.maxx - extent.minx
  let ySpan := extent.maxy - extent.miny
  let sx := ratToI32 ((p.x - extent.minx) * (tileSize : ℚ) / xSpan)
  let sy := ratToI32 ((p.y - extent.miny) * (tileSize : ℚ) / ySpan)
  { x := sx, y := if reverseY then i32SatSub (u32AsI32 tileSize) sy else sy }

/-- Pointwise projection of a point list (the loops of the `ScreenGeom`
implementations for `MultiPoint`, `LineString`, etc., `tile.rs` 64-164). -/
def projPoints (extent : Extent) (reverseY : Bool) (tileSize : Nat)
    (pts : List GPoint) : List SPoint :=
  pts.map (screenPointFromGeom extent reverseY tileSize)


/-! ## Command encoder

Modelled from the spec: the command encoder (`mvt::geom_encoder`,
`t-rex-core/src/mvt/geom_encoder.rs`) is not under `src/`; the definitions
below transcribe spec section 4.2 (command integers, zigzag parameter
integers, per-kind emission rules, dropping of degenerate sub-parts, and
deduplication of a ring's implicit closing point). -/

/-- Modelled from the spec: an MVT command integer packs a 3-bit command id
and a count, `(id & 0x7) | (count << 3)`. -/
def cmdInt (id count : Nat) : Nat :=
  (id &&& 7) ||| (count <<< 3)

/-- Modelled from the spec: zigzag encoding of a signed delta,
`(n << 1) ^ (n >> 31)`, which maps `n ≥ 0` to `2n` and `n < 0` to
`-2n - 1` (deltas of in-range screen coordinates). -/
def zigzag (n : Int) : Nat :=
  if 0 ≤ n then (2 * n).toNat else (-(2 * n) - 1).toNat

/-- Modelled from the spec: emit one zigzag-encoded `(dx, dy)` parameter
pair for each point, each delta taken from the previously emitted point;
returns the final cursor and the parameter integers. -/
def encodeChain (cursor : SPoint) : List SPoint → SPoint × List Nat
  | [] => (cursor, [])
  | p :: ps =>
    let rest := encodeChain p ps
    (rest.1, zigzag (p.x - cursor.x) :: zigzag (p.y - cursor.y) :: rest.2)

/-- Modelled from the spec: a single point is one `MoveTo` command with
count 1 followed by its parameter pair (delta from the implicit origin). -/
def encodeScreenPoint (p : SPoint) : List Nat :=
  cmdInt 1 1 :: zigzag p.x :: [zigzag p.y]

/-- Modelled from the spec: a multipoint is a single `MoveTo` command with
count = number of points followed by one chained pair per point. -/
def encodeScreenMultiPoint (pts : List SPoint) : List Nat :=
  cmdInt 1 pts.length :: (encodeChain ⟨0, 0⟩ pts).2

/-- Modelled from the spec: a line emits `MoveTo` count 1 with its first
point's delta, then `LineTo` with one pair per remaining point; lines with
fewer than 2 points are dropped (emit nothing, cursor unchanged). -/
def encodeLineFrom (cursor : SPoint) (pts : List SPoint) : SPoint × List Nat :=
  match pts with
  | p :: q :: rest =>
    let r := encodeChain p (q :: rest)
    (r.1, cmdInt 1 1 :: zigzag (p.x - cursor.x) :: zigzag (p.y - cursor.y) ::
      cmdInt 2 (rest.length + 1) :: r.2)
  | _ => (cursor, [])

/-- Modelled from the spec: drop a ring's implicit closing point (last
point equal to the first). -/
def dedupClose (pts : List SPoint) : List SPoint :=
  if 2 ≤ pts.length ∧ pts.getLast? = pts.head? then pts.dropLast else pts

/-- Modelled from the spec: a ring emits `MoveTo` + `LineTo` like a line,
then `ClosePath` with count 1; rings with fewer than 3 points after
deduplication of the implicit closing point are dropped. -/
def encodeRingFrom (cursor : SPoint) (pts0 : List SPoint) : SPoint × List Nat :=
  match dedupClose pts0 with
  | p :: q :: r :: rest =>
    let rr := encodeChain p (q :: r :: rest)
    (rr.1, cmdInt 1 1 :: zigzag (p.x - cursor.x) :: zigzag (p.y - cursor.y) ::
      cmdInt 2 (rest.length + 2) :: (rr.2 ++ [cmdInt 7 1]))
  | _ => (cursor, [])

/-- Modelled from the spec: lines of a multi-line string are emitted in
order with the cursor threaded through. -/
def encodeLinesFrom (cursor : SPoint) : List (List SPoint) → SPoint × List Nat
  | [] => (cursor, [])
  | l :: ls =>
    let r := encodeLineFrom cursor l
    let rs := encodeLinesFrom r.1 ls
    (rs.1, r.2 ++ rs.2)

/-- Modelled from the spec: rings of a polygon (or of the polygons of a
multipolygon, in order) are emitted in order with the cursor threaded
through. -/
def encodeRingsFrom (cursor : SPoint) : List (List SPoint) → SPoint × List Nat
  | [] => (cursor, [])
  | r :: rs =>
    let e := encodeRingFrom cursor r
    let es := encodeRingsFrom e.1 rs
    (es.1, e.2 ++ es.2)

/-! ## Geometry-level helpers from `tile.rs` and `core::geom` -/

/-- MVT geometry type enum (`vector_tile::Tile_GeomType`). -/
inductive GeomFieldType where
  | unknown
  | pointType
  | linestringType
  | polygonType
deriving DecidableEq

/-- `GeometryType::mvt_field_type` (`tile.rs` lines 29-42): fold the seven
geometry variants onto the three MVT geometry types, `GeometryCollection`
onto `UNKNOWN`. -/
def GeometryType.mvt_field_type : GeometryType → GeomFieldType
  | .point _ => .pointType
  | .lineString _ => .linestringType
  | .polygon _ => .polygonType
  | .multiPoint _ => .pointType
  | .multiLineString _ => .linestringType
  | .multiPolygon _ => .polygonType
  | .geometryCollection _ => .unknown

/-- Modelled from the spec: `GeometryType::is_empty` (`core::geom`, not
under `src/`). The spec (sections 3, 4.4 and 8) drops a feature exactly
when its geometry yields zero emitted points; this predicate transcribes
the per-kind emission rules of section 4.2 on the world geometry — the
only input the source function receives (it is called before projection,
`tile.rs` line 278). A point always emits; a line emits iff it has at
least 2 points; a ring emits iff it has at least 3 points after closing-
point deduplication; collections have no encoding and are empty iff they
have no members. -/
def worldRingDegenerate (r : GLineString) : Bool :=
  let pts :=
    if 2 ≤ r.points.length ∧ r.points.getLast? = r.points.head? then
      r.points.dropLast
    else r.points
  pts.length < 3

/-- Modelled from the spec: see `worldRingDegenerate`. -/
def GeometryType.is_empty : GeometryType → Bool
  | .point _ => false
  | .lineString l => l.points.length < 2
  | .polygon p => p.rings.all worldRingDegenerate
  | .multiPoint ps => ps.isEmpty
  | .multiLineString ls => ls.all (fun l => l.points.length < 2)
  | .multiPolygon ps => ps.all (fun p => p.rings.all worldRingDegenerate)
  | .geometryCollection gs => gs.isEmpty

/-- `Tile::encode_geom` (`tile.rs` lines 186-209): project the geometry to
screen space and encode it; `GeometryCollection` hits
`panic!("GeometryCollection not supported")`, modelled as `none`. -/
def encodeGeom (extent : Extent) (reverseY : Bool) (g : GeometryType)
    (tileSize : Nat) : Option (List Nat) :=
  match g with
  | .point p => some (encodeScreenPoint (screenPointFromGeom extent reverseY tileSize p))
  | .multiPoint ps => some (encodeScreenMultiPoint (projPoints extent reverseY tileSize ps))
  | .lineString l =>
    some (encodeLineFrom ⟨0, 0⟩ (projPoints extent reverseY tileSize l.points)).2
  | .multiLineString ls =>
    some (encodeLinesFrom ⟨0, 0⟩
      (ls.map (fun l => projPoints extent reverseY tileSize l.points))).2
  | .polygon p =>
    some (encodeRingsFrom ⟨0, 0⟩
      (p.rings.map (fun r => projPoints extent reverseY tileSize r.points))).2
  | .multiPolygon ps =>
    some (encodeRingsFrom ⟨0, 0⟩
      ((ps.map (fun p => p.rings.map (fun r =>
        projPoints extent reverseY tileSize r.points))).flatten)).2
  | .geometryCollection _ => none


/-! ## Tile builder (`tile.rs` lines 168-288)

`core::feature::FeatureAttrValType` and the `Feature` trait are declared
outside `src/`; their shape is fully determined by the `match` in
`add_feature` (`tile.rs` lines 247-269) and the trait calls `fid()`,
`attributes()`, `geometry()` (`tile.rs` lines 242-277). -/

/-- `core::feature::FeatureAttrValType`: the typed attribute value union,
exactly the variants matched in `add_feature`. Float payloads are carried
as rationals; the builder never inspects them. -/
inductive FeatureAttrValType where
  | string (s : String)
  | double (v : ℚ)
  | float (v : ℚ)
  | int (v : Int)
  | uint (v : Nat)
  | sint (v : Int)
  | bool (v : Bool)
deriving DecidableEq

/-- One entry of `Feature::attributes()` (`core::feature::FeatureAttr`). -/
structure FeatureAttr where
  key : String
  value : FeatureAttrValType
deriving DecidableEq

/-- The `Feature` capability consumed by `add_feature`, modelled as the
record of results of its three methods. -/
structure FeatureData where
  fid : Option Nat
  attributes : List FeatureAttr
  geometry : Except String GeometryType

/-- `vector_tile::Tile_Value`: protobuf value with one variant per
`set_*_value` setter used in `add_feature`; compared with structural
equality (`PartialEq`), as in `add_feature_attribute`. -/
inductive TileValue where
  | string (s : String)
  | double (v : ℚ)
  | float (v : ℚ)
  | int (v : Int)
  | uint (v : Nat)
  | sint (v : Int)
  | bool (v : Bool)
deriving DecidableEq

/-- `vector_tile::Tile_Feature`: id (unset unless `set_id` is called),
tags, geometry type and encoded geometry. -/
structure TileFeature where
  id : Option Nat
  tags : List Nat
  fieldType : GeomFieldType
  geometry : List Nat
deriving DecidableEq

/-- `vector_tile::Tile_Layer`: version, name, extent (pixel size), the
key/value dictionaries and the feature list. -/
structure TileLayer where
  version : Nat
  name : String
  extent : Nat
  keys : List String
  values : List TileValue
  features : List TileFeature
deriving DecidableEq

/-- The configuration `core::layer::Layer` fields read by the code under
`src/`: `name`, `tile_size`, `geometry_field`, `fid_field`. -/
structure LayerCfg where
  name : String
  tile_size : Nat
  geometry_field : Option String
  fid_field : Option String

/-- `Tile::new_layer` (`tile.rs` lines 178-184): fresh layer with
version 2, the configured name and `tile_size` as extent. -/
def newLayer (cfg : LayerCfg) : TileLayer :=
  { version := 2, name := cfg.name, extent := cfg.tile_size,
    keys := [], values := [], features := [] }

/-- Rust `Iterator::position`: index of the first element equal to `a`. -/
def position {α : Type} [DecidableEq α] (a : α) : List α → Option Nat
  | [] => none
  | b :: l =>
    if b = a then some 0 else
      match position a l with
      | none => none
      | some i => some (i + 1)

/-- The interning step performed twice inside `add_feature_attribute`
(`tile.rs` lines 217-225 and 228-236): look the entry up with `position`;
if absent push it and use the new last index, else use the found index. -/
def intern {α : Type} [DecidableEq α] (l : List α) (a : α) : List α × Nat :=
  match position a l with
  | none => (l ++ [a], l.length)
  | some i => (l, i)

/-- `Tile::add_feature_attribute` (`tile.rs` lines 211-238): intern the
key into `layer.keys`, push its index onto the feature's tags, then intern
the value into `layer.values` and push its index. -/
def addFeatureAttribute (layer : TileLayer) (feat : TileFeature)
    (key : String) (v : TileValue) : TileLayer × TileFeature :=
  let rk := intern layer.keys key
  let feat1 := { feat with tags := feat.tags ++ [rk.2] }
  let rv := intern layer.values v
  let feat2 := { feat1 with tags := feat1.tags ++ [rv.2] }
  ({ layer with keys := rk.1, values := rv.1 }, feat2)

/-- The `match attr.value` block of `add_feature` (`tile.rs` lines
247-269): build the `Tile_Value` for one attribute. -/
def tileValueOf : FeatureAttrValType → TileValue
  | .string s => .string s
  | .double v => .double v
  | .float v => .float v
  | .int v => .int v
  | .uint v => .uint v
  | .sint v => .sint v
  | .bool v => .bool v

/-- `Tile_Feature::new` plus the optional `set_id` call
(`tile.rs` lines 241-244). -/
def mkMvtFeature (fid : Option Nat) : TileFeature :=
  { id := fid, tags := [], fieldType := .unknown, geometry := [] }

/-- One iteration of the attribute loop of `add_feature` (`tile.rs` lines
245-276): build the `Tile_Value` and call `add_feature_attribute`. -/
def internStep (acc : TileLayer × TileFeature) (a : FeatureAttr) :
    TileLayer × TileFeature :=
  addFeatureAttribute acc.1 acc.2 a.key (tileValueOf a.value)

/-- The attribute loop of `add_feature` (`tile.rs` lines 245-276):
fold `add_feature_attribute` over the feature's attributes. -/
def internAttrs (layer : TileLayer) (f : FeatureData) : TileLayer × TileFeature :=
  f.attributes.foldl internStep (layer, mkMvtFeature f.fid)

/-- `Tile::add_feature` (`tile.rs` lines 240-284): set the id, intern all
attributes, then — only if `geometry()` returned `Ok` and the geometry is
not `is_empty` — set the field type, encode the geometry and push the
feature. A `GeometryCollection` reaching `encode_geom` panics, modelled as
`none`. -/
def addFeature (extent : Extent) (reverseY : Bool) (layer : TileLayer)
    (f : FeatureData) : Option TileLayer :=
  let li := internAttrs layer f
  match f.geometry with
  | .error _ => some li.1
  | .ok geom =>
    if geom.is_empty then some li.1
    else
      match encodeGeom extent reverseY geom li.1.extent with
      | none => none
      | some cmds =>
        some { li.1 with
          features := li.1.features ++
            [{ li.2 with fieldType := geom.mvt_field_type, geometry := cmds }] }

/-- A layer built by repeated `add_feature` calls (the per-feature loop of
the tile service); `none` as soon as one call panics. -/
def runAddFeatures (extent : Extent) (reverseY : Bool) (layer : TileLayer) :
    List FeatureData → Option TileLayer
  | [] => some layer
  | f :: fs =>
    match addFeature extent reverseY layer f with
    | none => none
    | some l' => runAddFeatures extent reverseY l' fs


/-! ## PostGIS feature provider (`postgis_fields.rs`) -/

/-- The PostgreSQL column types distinguished by
`FromSql for FeatureAttrValType` (`postgis_fields.rs` lines 56-97), plus
representative unaccepted types for the catch-all arm. -/
inductive PgType where
  | varchar
  | text
  | charArray
  | float4
  | float8
  | int2
  | int4
  | int8
  | bool
  | numeric
  | timestamp
  | uuid
  | bytea
deriving DecidableEq

/-- The results of the primitive `FromSql` decoders of the postgres crate
(`<String>::from_sql`, `<f32>::from_sql`, ...) on one `(type, raw)` pair;
these decoders are external to the repository, so they enter the model as
inputs. The `i16`/`i32` results are integer values; the `as i64` widening
casts in the source are value-preserving. -/
structure RawDecoders where
  str : Except String String
  f32 : Except String ℚ
  f64 : Except String ℚ
  i16 : Except String Int
  i32 : Except String Int
  i64 : Except String Int
  boolv : Except String Bool

/-- `FromSql::accepts` (`postgis_fields.rs` lines 57-70). -/
def acceptsType : PgType → Bool
  | .varchar | .text | .charArray | .float4 | .float8
  | .int2 | .int4 | .int8 | .bool => true
  | _ => false

/-- `FromSql::from_sql` (`postgis_fields.rs` lines 71-96): map the decoded
primitive into the `FeatureAttrValType` union; text types to `String`,
`FLOAT4` to `Float`, `FLOAT8` to `Double`, `INT2`/`INT4`/`INT8` widened to
`Int`, `BOOL` to `Bool`, anything else an error. -/
def featureAttrValFromSql (ty : PgType) (d : RawDecoders) :
    Except String FeatureAttrValType :=
  match ty with
  | .varchar | .text | .charArray => d.str.map (fun v => .string v)
  | .float4 => d.f32.map (fun v => .float v)
  | .float8 => d.f64.map (fun v => .double v)
  | .int2 => d.i16.map (fun v => .int v)
  | .int4 => d.i32.map (fun v => .int v)
  | .int8 => d.i64.map (fun v => .int v)
  | .bool => d.boolv.map (fun v => .bool v)
  | _ => .error "cannot convert to FeatureAttrValType"

instance exceptDecEq {ε α : Type} [DecidableEq ε] [DecidableEq α] :
    DecidableEq (Except ε α) := fun x y =>
  match x, y with
  | .ok a, .ok b =>
    if h : a = b then isTrue (by rw [h]) else isFalse (fun he => h (by injection he))
  | .error a, .error b =>
    if h : a = b then isTrue (by rw [h]) else isFalse (fun he => h (by injection he))
  | .ok _, .error _ => isFalse (fun he => Except.noConfusion he)
  | .error _, .ok _ => isFalse (fun he => Except.noConfusion he)

/-- One column of a `postgres::rows::Row` as seen by
`FeatureRow::attributes`: its name and the result of
`get_opt::<_, Option<FeatureAttrValType>>` — decode error, NULL
(`Ok(None)`) or a value. -/
structure PgColumn where
  name : String
  cell : Except String (Option FeatureAttrValType)
deriving DecidableEq

/-- `FeatureRow::attributes` (`postgis_fields.rs` lines 114-151): walk the
columns in order; a column whose name equals
`geometry_field.unwrap_or("")` or `fid_field.unwrap_or("")` is skipped;
otherwise a decoded value is kept, a NULL is omitted and a decode error is
logged and skipped. -/
def rowAttributes (layer : LayerCfg) : List PgColumn → List FeatureAttr
  | [] => []
  | col :: rest =>
    if col.name ≠ layer.geometry_field.getD "" ∧
        col.name ≠ layer.fid_field.getD "" then
      match col.cell with
      | .ok (some v) => ⟨col.name, v⟩ :: rowAttributes layer rest
      | .ok none => rowAttributes layer rest
      | .error _ => rowAttributes layer rest
    else rowAttributes layer rest

/-- The skip test as the claim states it: a column is skipped only when
its name equals a *configured* geometry-field or fid-field name. -/
def skipNameClaim (o : Option String) (n : String) : Bool :=
  match o with
  | some s => n == s
  | none => false

/-- `attributes()` as described by the claim (used to compare against the
code): skip exactly the columns matching `skipNameClaim`. -/
def rowAttributesClaim (layer : LayerCfg) : List PgColumn → List FeatureAttr
  | [] => []
  | col :: rest =>
    if skipNameClaim layer.geometry_field col.name ||
        skipNameClaim layer.fid_field col.name then
      rowAttributesClaim layer rest
    else
      match col.cell with
      | .ok (some v) => ⟨col.name, v⟩ :: rowAttributesClaim layer rest
      | .ok none => rowAttributesClaim layer rest
      | .error _ => rowAttributesClaim layer rest

/-- The skip test the code actually implements, stated without `getD`: the
configured name, or the empty string when the field is unconfigured. -/
def skipNameAmended (o : Option String) (n : String) : Bool :=
  match o with
  | some s => n == s
  | none => n == ""

/-- `attributes()` as amended: skip exactly the columns matching
`skipNameAmended`. -/
def rowAttributesAmended (layer : LayerCfg) : List PgColumn → List FeatureAttr
  | [] => []
  | col :: rest =>
    if skipNameAmended layer.geometry_field col.name ||
        skipNameAmended layer.fid_field col.name then
      rowAttributesAmended layer rest
    else
      match col.cell with
      | .ok (some v) => ⟨col.name, v⟩ :: rowAttributesAmended layer rest
      | .ok none => rowAttributesAmended layer rest
      | .error _ => rowAttributesAmended layer rest

/-! ## Tile writer (`tile.rs` lines 290-294)

`Tile::write_to` drives two external calls: `mvt_tile.write_to(&mut os)`
(protobuf encoding through a `CodedOutputStream`, which writes through to
the sink as its internal buffer fills, and on an I/O error returns `Err`
after a prefix of the encoding has reached the sink) and `os.flush()`.
The behaviour of the external sink enters the model as an input. -/

/-- One run of the external protobuf write machinery: the full encoding of
the tile, whether the write step failed after `k` bytes had reached the
sink (`failAt = some k`), and whether the final flush fails. -/
structure PbWriteOutcome where
  encoded : List Nat
  failAt : Option Nat
  flushFails : Bool

/-- `Tile::write_to` (`tile.rs` lines 290-294): the result of the write
step is discarded (`let _ = mvt_tile.write_to(&mut os)`), then
`os.flush().unwrap()` panics (`none`) iff the flush fails; otherwise the
call returns with whatever bytes reached the sink. -/
def tileWriteTo (o : PbWriteOutcome) : Option (List Nat) :=
  let written :=
    match o.failAt with
    | none => o.encoded
    | some k => o.encoded.take k
  if o.flushFails then none else some written

/-! ## Derived definitions used by the statements -/

/-- Interning a whole list in order, returning the final dictionary and
the index every entry was assigned (used to state the order-preservation
part of the interning contract). -/
def internList {α : Type} [DecidableEq α] (l : List α) :
    List α → List α × List Nat
  | [] => (l, [])
  | a :: as =>
    let r := intern l a
    let rest := internList r.1 as
    (rest.1, r.2 :: rest.2)

/-- Well-formed feature tags with respect to dictionary sizes: an
alternating sequence of key/value index pairs, each in range. -/
inductive TagsValid (nk nv : Nat) : List Nat → Prop where
  | nil : TagsValid nk nv []
  | pair {k v : Nat} {rest : List Nat} :
      k < nk → v < nv → TagsValid nk nv rest → TagsValid nk nv (k :: v :: rest)

/-- Tags-validity of every feature of a layer against that layer's own
dictionaries. -/
def layerValid (L : TileLayer) : Prop :=
  ∀ ft ∈ L.features, TagsValid L.keys.length L.values.length ft.tags

/-- A shared concrete extent for witnesses and counterexamples. -/
def extent0 : Extent := ⟨0, 0, 4096, 4096⟩

/-- A shared concrete layer configuration. -/
def cfgL : LayerCfg := ⟨"l", 4096, none, none⟩

/-- A polygon whose single ring has three distinct world points of which
the last projects (under `extent0`, tile size 4096) onto the same pixel as
the first: `1/1024` is exactly representable as an `f64` and the ring
collapses only at pixel resolution. -/
def polyG : GeometryType :=
  .polygon ⟨[⟨[⟨0, 0⟩, ⟨2000, 2000⟩, ⟨1/1024, 1/1024⟩]⟩]⟩

/-- A feature carrying `polyG` and no attributes. -/
def fPoly : FeatureData := ⟨none, [], .ok polyG⟩

/-- The layer `add_feature` produces from `fPoly`: the feature is appended
with an empty geometry command sequence. -/
def LPoly : TileLayer :=
  { version := 2, name := "l", extent := 4096, keys := [], values := [],
    features := [⟨none, [], .polygonType, []⟩] }

/-- A feature whose geometry is a non-empty `GeometryCollection`. -/
def fGC : FeatureData := ⟨none, [], .ok (.geometryCollection [.point ⟨0, 0⟩])⟩

/-- A feature whose geometry is an empty `GeometryCollection`. -/
def fGCe : FeatureData := ⟨none, [], .ok (.geometryCollection [])⟩

/-- A feature with one attribute whose geometry fetch failed. -/
def f10 : FeatureData := ⟨none, [⟨"name", .string "x"⟩], .error "db error"⟩

/-- Claim C1 as stated: a feature is appended iff its geometry encoded to
a non-empty command sequence. -/
def C1Claim : Prop :=
  ∀ (extent : Extent) (reverseY : Bool) (layer : TileLayer) (f : FeatureData)
    (g : GeometryType) (cmds : List Nat) (l' : TileLayer),
    f.geometry = .ok g →
    encodeGeom extent reverseY g layer.extent = some cmds →
    addFeature extent reverseY layer f = some l' →
    (layer.features.length < l'.features.length ↔ cmds ≠ [])

/-- Claim C2 as stated: a `GeometryCollection` feature is excluded from
the layer and encoding continues normally (`add_feature` returns a layer
with the feature list unchanged). -/
def C2Claim : Prop :=
  ∀ (extent : Extent) (reverseY : Bool) (layer : TileLayer) (f : FeatureData)
    (gs : List GeometryType),
    f.geometry = .ok (.geometryCollection gs) →
    ∃ l', addFeature extent reverseY layer f = some l' ∧
      l'.features = layer.features

/-- Claim C4 as stated: the screen projector rounds the affine-mapped
coordinates to the nearest integer. -/
def C4Claim : Prop :=
  ∀ (extent : Extent), extent.minx < extent.maxx → extent.miny < extent.maxy →
    ∀ (ts : Nat) (p : GPoint),
      screenPointFromGeom extent false ts p =
        ⟨round ((p.x - extent.minx) * (ts : ℚ) / (extent.maxx - extent.minx)),
         round ((p.y - extent.miny) * (ts : ℚ) / (extent.maxy - extent.miny))⟩

/-- Claim C5 as stated: with `reverse_y` the projected y is
`tile_size - sy` saturating at zero, hence never negative. -/
def C5Claim : Prop :=
  ∀ (extent : Extent), extent.minx < extent.maxx → extent.miny < extent.maxy →
    ∀ (ts : Nat) (p : GPoint),
      (screenPointFromGeom extent true ts p).y =
        max 0 ((ts : Int) -
          ratToI32 ((p.y - extent.miny) * (ts : ℚ) / (extent.maxy - extent.miny)))
      ∧ 0 ≤ (screenPointFromGeom extent true ts p).y

/-- Claim C8 as stated: `attributes()` behaves like `rowAttributesClaim`
(skipping only columns matching a configured field name). -/
def C8Claim : Prop :=
  ∀ (layer : LayerCfg) (cols : List PgColumn),
    rowAttributes layer cols = rowAttributesClaim layer cols

/-! # Theorems -/

/-! ## C3: tile write path -/

/-- C3: evidence against the claim that writing a tile "propagates any I/O
or protocol-buffer encoding error to the caller as a hard failure, and
never returns having written a partially-flushed or truncated output".
`Tile::write_to` discards the result of the protobuf write step
(`let _ = mvt_tile.write_to(&mut os)`, `tile.rs` line 292): when that step
fails after 1 of 3 encoded bytes reached the sink and the final flush
succeeds, the call returns normally with truncated output. Only a flush
failure aborts (by panic, via `unwrap`), and only the failure-free run
writes the whole buffer. -/
theorem write_to_discards_write_error :
    tileWriteTo ⟨[1, 2, 3], some 1, false⟩ = some [1]
    ∧ [1] ≠ [1, 2, 3]
    ∧ tileWriteTo ⟨[1, 2, 3], none, false⟩ = some [1, 2, 3]
    ∧ tileWriteTo ⟨[1, 2, 3], some 1, true⟩ = none := by
  refine ⟨rfl, by decide, rfl, rfl⟩

/-! ## C4: projector rounding -/

/-- C4 (counterexample): the projector does not round to the nearest
integer. At extent `{0,0,4096,4096}`, tile size 4096, the point
`(3/4, 3/4)` (exact in `f64`, all source arithmetic exact) is mapped to
pixel `(0, 0)` by the `as i32` cast, while rounding would give `(1, 1)`. -/
theorem projector_truncates_counterexample : ¬ C4Claim := fun h =>
  absurd (h ⟨0, 0, 4096, 4096⟩ (by norm_num) (by norm_num) 4096 ⟨3/4, 3/4⟩)
    (by decide)

/-- C4 (as amended): the projector returns the affine-mapped coordinates
truncated toward zero by the `as i32` cast (saturating at the `i32`
bounds), not rounded to nearest; for nonnegative arguments the truncation
is the floor, which differs from round-to-nearest by at most one and never
exceeds it. -/
theorem projector_truncation_formula :
    (∀ (extent : Extent) (ts : Nat) (p : GPoint),
      screenPointFromGeom extent false ts p =
        ⟨ratToI32 ((p.x - extent.minx) * (ts : ℚ) / (extent.maxx - extent.minx)),
         ratToI32 ((p.y - extent.miny) * (ts : ℚ) / (extent.maxy - extent.miny))⟩)
    ∧ (∀ q : ℚ, 0 ≤ q →
        ratTrunc q = ⌊q⌋ ∧ round q - 1 ≤ ⌊q⌋ ∧ ⌊q⌋ ≤ round q) := by
  constructor
  · intro extent ts p
    rfl
  · intro q hq
    refine ⟨if_neg (not_lt.2 hq), ?_, ?_⟩
    · rw [round_eq]
      have h1 : (⌊q + 1/2⌋ : Int) ≤ ⌊q + 1⌋ := Int.floor_le_floor (by linarith)
      have h2 : (⌊q + (1 : ℚ)⌋ : Int) = ⌊q⌋ + 1 := by
        exact_mod_cast Int.floor_add_int q 1
      omega
    · rw [round_eq]
      exact Int.floor_le_floor (by linarith)

/-- C4 witness: the amended statement applied at the concrete argument
`3/4` of the counterexample. -/
theorem projector_truncation_formula_witness :
    (0 : ℚ) ≤ 3/4 ∧
      (ratTrunc (3/4 : ℚ) = ⌊(3/4 : ℚ)⌋ ∧
        round (3/4 : ℚ) - 1 ≤ ⌊(3/4 : ℚ)⌋ ∧ ⌊(3/4 : ℚ)⌋ ≤ round (3/4 : ℚ)) :=
  ⟨by norm_num, projector_truncation_formula.2 (3/4) (by norm_num)⟩

/-! ## C5: reverse_y saturation -/

/-- C5 (counterexample): the `reverse_y` subtraction saturates at the
`i32` bounds, not at zero. At extent `{0,0,4096,4096}`, tile size 4096,
the point `(0, 5000)` (outside the extent, all source arithmetic exact in
`f64`) projects with `reverse_y` to pixel y `= 4096 - 5000 = -904 < 0`. -/
theorem reverse_y_negative_counterexample : ¬ C5Claim := fun h =>
  absurd (h ⟨0, 0, 4096, 4096⟩ (by norm_num) (by norm_num) 4096 ⟨0, 5000⟩).2
    (by decide)

/-- C5 (as amended): with `reverse_y` the projected y is computed by `i32`
saturating subtraction `tile_size - sy` (saturating at the `i32` range
bounds, not at zero); for every input point inside the extent, with a tile
size representable as `i32`, the result is nonnegative (and at most the
tile size). -/
theorem reverse_y_nonneg_inside_extent :
    ∀ (extent : Extent) (ts : Nat) (p : GPoint),
      extent.miny ≤ p.y → p.y ≤ extent.maxy → extent.miny < extent.maxy →
      (ts : Int) ≤ 2 ^ 31 - 1 →
      (screenPointFromGeom extent true ts p).y =
        i32SatSub (u32AsI32 ts)
          (ratToI32 ((p.y - extent.miny) * (ts : ℚ) / (extent.maxy - extent.miny)))
      ∧ 0 ≤ (screenPointFromGeom extent true ts p).y
      ∧ (screenPointFromGeom extent true ts p).y ≤ (ts : Int) := by
  intro extent ts p h1 h2 h3 hts
  have hpow : ((2 : Int) ^ 31 : Int) = 2147483648 := by norm_num
  have hspan : (0 : ℚ) < extent.maxy - extent.miny := by linarith
  set q : ℚ := (p.y - extent.miny) * (ts : ℚ) / (extent.maxy - extent.miny) with hqdef
  have hq0 : 0 ≤ q := by
    apply div_nonneg _ (le_of_lt hspan)
    exact mul_nonneg (by linarith) (by positivity)
  have hqts : q ≤ (ts : ℚ) := by
    rw [hqdef, div_le_iff₀ hspan]
    have hmul : (p.y - extent.miny) * (ts : ℚ) ≤ (extent.maxy - extent.miny) * (ts : ℚ) :=
      mul_le_mul_of_nonneg_right (by linarith) (by positivity)
    linarith [hmul]
  have hfl0 : (0 : Int) ≤ ⌊q⌋ := Int.floor_nonneg.2 hq0
  have hflts : ⌊q⌋ ≤ (ts : Int) := by
    have h := Int.floor_le_floor hqts
    rwa [Int.floor_natCast] at h
  have htr : ratTrunc q = ⌊q⌋ := if_neg (not_lt.2 hq0)
  have hto : ratToI32 q = ⌊q⌋ := by
    unfold ratToI32
    rw [htr, min_eq_right (by omega), max_eq_right (by omega)]
  have hpow32 : ((2 : Int) ^ 32 : Int) = 4294967296 := by norm_num
  have hmod : ((ts : Int)) % 2 ^ 32 = (ts : Int) :=
    Int.emod_eq_of_lt (by positivity) (by omega)
  have hu : u32AsI32 ts = (ts : Int) := by
    unfold u32AsI32
    rw [hmod, if_pos (by omega)]
  have hy : (screenPointFromGeom extent true ts p).y = i32SatSub (u32AsI32 ts) (ratToI32 q) := rfl
  refine ⟨hy, ?_, ?_⟩
  · rw [hy, hu, hto]
    unfold i32SatSub
    rw [min_eq_right (by omega), max_eq_right (by omega)]
    omega
  · rw [hy, hu, hto]
    unfold i32SatSub
    rw [min_eq_right (by omega), max_eq_right (by omega)]
    omega

/-- C5 witness: the amended statement applied to the in-extent point
`(0, 2048)` with extent `{0,0,4096,4096}` and tile size 4096. -/
theorem reverse_y_nonneg_inside_extent_witness :
    (screenPointFromGeom extent0 true 4096 ⟨0, 2048⟩).y =
      i32SatSub (u32AsI32 4096)
        (ratToI32 (((2048 : ℚ)- extent0.miny) * (4096 : ℚ) / (extent0.maxy - extent0.miny)))
    ∧ 0 ≤ (screenPointFromGeom extent0 true 4096 ⟨0, 2048⟩).y
    ∧ (screenPointFromGeom extent0 true 4096 ⟨0, 2048⟩).y ≤ (4096 : Int) :=
  reverse_y_nonneg_inside_extent extent0 4096 ⟨0, 2048⟩
    (by norm_num [extent0]) (by norm_num [extent0]) (by norm_num [extent0])
    (by norm_num)

/-! ## C9: attribute value decoding -/

/-- C9: `FromSql for FeatureAttrValType` maps exactly the supported source
types into the value union — text types to `String`, `FLOAT4` to `Float`,
`FLOAT8` to `Double`, `INT2`/`INT4`/`INT8` widened (value-preservingly) to
a signed 64-bit `Int`, `BOOL` to `Bool` — and any type not accepted
(`acceptsType` false) yields an error rather than a value. -/
theorem from_sql_value_mapping :
    ∀ (d : RawDecoders),
      (∀ s, d.str = .ok s →
        featureAttrValFromSql .varchar d = .ok (.string s) ∧
        featureAttrValFromSql .text d = .ok (.string s) ∧
        featureAttrValFromSql .charArray d = .ok (.string s)) ∧
      (∀ v, d.f32 = .ok v → featureAttrValFromSql .float4 d = .ok (.float v)) ∧
      (∀ v, d.f64 = .ok v → featureAttrValFromSql .float8 d = .ok (.double v)) ∧
      (∀ v, d.i16 = .ok v → featureAttrValFromSql .int2 d = .ok (.int v)) ∧
      (∀ v, d.i32 = .ok v → featureAttrValFromSql .int4 d = .ok (.int v)) ∧
      (∀ v, d.i64 = .ok v → featureAttrValFromSql .int8 d = .ok (.int v)) ∧
      (∀ b, d.boolv = .ok b → featureAttrValFromSql .bool d = .ok (.bool b)) ∧
      (∀ ty, acceptsType ty = false →
        ∃ e, featureAttrValFromSql ty d = .error e) := by
  intro d
  refine ⟨?_, ?_, ?_, ?_, ?_, ?_, ?_, ?_⟩
  · intro s hs
    refine ⟨?_, ?_, ?_⟩ <;> simp [featureAttrValFromSql, hs, Except.map]
  · intro v hv
    simp [featureAttrValFromSql, hv, Except.map]
  · intro v hv
    simp [featureAttrValFromSql, hv, Except.map]
  · intro v hv
    simp [featureAttrValFromSql, hv, Except.map]
  · intro v hv
    simp [featureAttrValFromSql, hv, Except.map]
  · intro v hv
    simp [featureAttrValFromSql, hv, Except.map]
  · intro b hb
    simp [featureAttrValFromSql, hb, Except.map]
  · intro ty hty
    cases ty <;> first
      | exact absurd hty (by decide)
      | exact ⟨_, rfl⟩

/-- C9 witness: the mapping applied to concrete decoder results for a
text column, an `INT2` column and an unaccepted `NUMERIC` column. -/
theorem from_sql_value_mapping_witness :
    featureAttrValFromSql .varchar ⟨.ok "a", .ok 0, .ok 0, .ok 3, .ok 4, .ok 5, .ok true⟩ =
      .ok (.string "a")
    ∧ featureAttrValFromSql .int2 ⟨.ok "a", .ok 0, .ok 0, .ok 3, .ok 4, .ok 5, .ok true⟩ =
      .ok (.int 3)
    ∧ ∃ e, featureAttrValFromSql .numeric
        ⟨.ok "a", .ok 0, .ok 0, .ok 3, .ok 4, .ok 5, .ok true⟩ = .error e :=
  ⟨((from_sql_value_mapping _).1 "a" rfl).1,
   (from_sql_value_mapping _).2.2.2.1 3 rfl,
   (from_sql_value_mapping _).2.2.2.2.2.2.2 .numeric rfl⟩

/-! ## Helper lemmas on `position` and `intern` -/

theorem position_none_of_not_mem {α : Type} [DecidableEq α] {a : α} :
    ∀ {l : List α}, a ∉ l → position a l = none := by
  intro l
  induction l with
  | nil => intro _; rfl
  | cons b l ih =>
    intro h
    rw [List.mem_cons, not_or] at h
    rw [position, if_neg (fun hba => h.1 hba.symm), ih h.2]

theorem position_some_of_mem {α : Type} [DecidableEq α] {a : α} :
    ∀ {l : List α}, a ∈ l → ∃ i, position a l = some i := by
  intro l
  induction l with
  | nil => intro h; exact absurd h (List.not_mem_nil a)
  | cons b l ih =>
    intro h
    by_cases hba : b = a
    · exact ⟨0, by rw [position, if_pos hba]⟩
    · have hmem : a ∈ l := by
        rcases List.mem_cons.1 h with h1 | h1
        · exact absurd h1.symm hba
        · exact h1
      obtain ⟨i, hi⟩ := ih hmem
      exact ⟨i + 1, by rw [position, if_neg hba, hi]⟩

theorem position_some_lt {α : Type} [DecidableEq α] {a : α} :
    ∀ {l : List α} {i : Nat}, position a l = some i → i < l.length := by
  intro l
  induction l with
  | nil => intro i h; exact absurd h (by rw [position]; exact Option.noConfusion)
  | cons b l ih =>
    intro i h
    rw [position] at h
    by_cases hba : b = a
    · rw [if_pos hba] at h
      injection h with h
      simp only [List.length_cons]
      omega
    · rw [if_neg hba] at h
      cases hpos : position a l with
      | none => rw [hpos] at h; exact Option.noConfusion h
      | some j =>
        rw [hpos] at h
        injection h with h
        have := ih hpos
        simp only [List.length_cons]
        omega

theorem position_some_get {α : Type} [DecidableEq α] {a : α} :
    ∀ {l : List α} {i : Nat}, position a l = some i → l[i]? = some a := by
  intro l
  induction l with
  | nil => intro i h; exact absurd h (by rw [position]; exact Option.noConfusion)
  | cons b l ih =>
    intro i h
    rw [position] at h
    by_cases hba : b = a
    · rw [if_pos hba] at h
      injection h with h
      subst h
      rw [List.getElem?_cons_zero, hba]
    · rw [if_neg hba] at h
      cases hpos : position a l with
      | none => rw [hpos] at h; exact Option.noConfusion h
      | some j =>
        rw [hpos] at h
        injection h with h
        subst h
        rw [List.getElem?_cons_succ]
        exact ih hpos

theorem position_some_first {α : Type} [DecidableEq α] {a : α} :
    ∀ {l : List α} {i : Nat}, position a l = some i →
      ∀ j, j < i → l[j]? ≠ some a := by
  intro l
  induction l with
  | nil => intro i h; exact absurd h (by rw [position]; exact Option.noConfusion)
  | cons b l ih =>
    intro i h j hj
    rw [position] at h
    by_cases hba : b = a
    · rw [if_pos hba] at h
      injection h with h
      omega
    · rw [if_neg hba] at h
      cases hpos : position a l with
      | none => rw [hpos] at h; exact Option.noConfusion h
      | some k =>
        rw [hpos] at h
        injection h with h
        subst h
        cases j with
        | zero =>
          rw [List.getElem?_cons_zero]
          intro hc
          injection hc with hc
          exact hba hc
        | succ j =>
          rw [List.getElem?_cons_succ]
          exact ih hpos j (by omega)

theorem position_append_self {α : Type} [DecidableEq α] {a : α} :
    ∀ {l : List α}, a ∉ l → position a (l ++ [a]) = some l.length := by
  intro l
  induction l with
  | nil => intro _; rw [List.nil_append, position, if_pos rfl]; rfl
  | cons b l ih =>
    intro h
    rw [List.mem_cons, not_or] at h
    rw [List.cons_append, position, if_neg (fun hba => h.1 hba.symm), ih h.2]
    rfl

theorem intern_of_not_mem {α : Type} [DecidableEq α] {l : List α} {a : α}
    (h : a ∉ l) : intern l a = (l ++ [a], l.length) := by
  rw [intern, position_none_of_not_mem h]

theorem intern_of_mem {α : Type} [DecidableEq α] {l : List α} {a : α}
    (h : a ∈ l) : (intern l a).1 = l ∧ (intern l a).1[(intern l a).2]? = some a := by
  obtain ⟨i, hi⟩ := position_some_of_mem h
  rw [intern, hi]
  exact ⟨rfl, position_some_get hi⟩

theorem intern_fst_cases {α : Type} [DecidableEq α] (l : List α) (a : α) :
    (intern l a).1 = l ∨ (intern l a).1 = l ++ [a] := by
  rw [intern]
  cases position a l with
  | none => exact Or.inr rfl
  | some i => exact Or.inl rfl

theorem intern_length_le {α : Type} [DecidableEq α] (l : List α) (a : α) :
    l.length ≤ (intern l a).1.length := by
  rcases intern_fst_cases l a with h | h <;> simp [h]

theorem intern_snd_lt {α : Type} [DecidableEq α] (l : List α) (a : α) :
    (intern l a).2 < (intern l a).1.length := by
  rw [intern]
  cases hpos : position a l with
  | none => simp
  | some i => exact position_some_lt hpos

theorem intern_mem_mono {α : Type} [DecidableEq α] {l : List α} {x : α}
    (a : α) (h : x ∈ l) : x ∈ (intern l a).1 := by
  rcases intern_fst_cases l a with hc | hc <;> rw [hc]
  · exact h
  · exact List.mem_append_left _ h

theorem intern_mem_self {α : Type} [DecidableEq α] (l : List α) (a : α) :
    a ∈ (intern l a).1 := by
  rw [intern]
  cases hpos : position a l with
  | none => exact List.mem_append_right _ (List.mem_singleton.2 rfl)
  | some i =>
    by_cases h : a ∈ l
    · exact h
    · rw [position_none_of_not_mem h] at hpos
      exact Option.noConfusion hpos

theorem internList_fresh {α : Type} [DecidableEq α] :
    ∀ (as : List α) (l : List α), as.Nodup → (∀ a ∈ as, a ∉ l) →
      internList l as = (l ++ as, (List.range as.length).map (· + l.length)) := by
  intro as
  induction as with
  | nil => intro l _ _; simp [internList]
  | cons a as ih =>
    intro l hnd hfresh
    have hna : a ∉ l := hfresh a (List.mem_cons_self a as)
    have hstep : intern l a = (l ++ [a], l.length) := intern_of_not_mem hna
    have hfresh' : ∀ b ∈ as, b ∉ l ++ [a] := by
      intro b hb
      rw [List.mem_append, List.mem_singleton]
      rintro (hbl | hba)
      · exact hfresh b (List.mem_cons_of_mem a hb) hbl
      · exact (List.nodup_cons.1 hnd).1 (hba ▸ hb)
    have hrec := ih (l ++ [a]) (List.nodup_cons.1 hnd).2 hfresh'
    rw [internList, hstep, hrec]
    refine Prod.ext ?_ ?_
    · simp
    · show l.length :: (List.range as.length).map (· + (l ++ [a]).length) =
        (List.range (a :: as).length).map (· + l.length)
      have hlen : (l ++ [a]).length = l.length + 1 := by simp
      rw [hlen, List.length_cons, List.range_succ_eq_map, List.map_cons,
        List.map_map]
      have hz : (0 : Nat) + l.length = l.length := by omega
      rw [hz]
      refine congrArg _ (List.map_congr_left ?_)
      intro i _
      show i + (l.length + 1) = i.succ + l.length
      omega

/-! ## C6: attribute interning -/

/-- C6: interning is idempotent and order-preserving. (1) Interning an
entry equal to one already in the dictionary returns a position of that
entry and leaves the dictionary unchanged; (2) interning a new entry
appends it and returns the new last index; (3) interning the same entry
twice returns the same index both times and leaves the dictionary
unchanged the second time; (4) interning N distinct entries into an empty
dictionary yields indices 0..N-1 in first-seen order; (5)
`add_feature_attribute` performs exactly this interning on the layer's key
and value dictionaries, pushing the two indices onto the feature's tags. -/
theorem intern_idempotent_order_preserving :
    (∀ {α : Type} [DecidableEq α] (l : List α) (a : α), a ∈ l →
      (intern l a).1 = l ∧ (intern l a).1[(intern l a).2]? = some a) ∧
    (∀ {α : Type} [DecidableEq α] (l : List α) (a : α), a ∉ l →
      intern l a = (l ++ [a], l.length)) ∧
    (∀ {α : Type} [DecidableEq α] (l : List α) (a : α),
      intern (intern l a).1 a = ((intern l a).1, (intern l a).2)) ∧
    (∀ {α : Type} [DecidableEq α] (as : List α), as.Nodup →
      internList [] as = (as, List.range as.length)) ∧
    (∀ (layer : TileLayer) (feat : TileFeature) (key : String) (v : TileValue),
      addFeatureAttribute layer feat key v =
        ({ layer with keys := (intern layer.keys key).1,
                      values := (intern layer.values v).1 },
         { feat with tags := feat.tags ++
            [(intern layer.keys key).2, (intern layer.values v).2] })) := by
  refine ⟨?_, ?_, ?_, ?_, ?_⟩
  · intro α inst l a h
    exact intern_of_mem h
  · intro α inst l a h
    exact intern_of_not_mem h
  · intro α inst l a
    by_cases h : a ∈ l
    · obtain ⟨i, hi⟩ := position_some_of_mem h
      have h1 : intern l a = (l, i) := by rw [intern, hi]
      rw [h1]
      exact h1
    · have h1 : intern l a = (l ++ [a], l.length) := intern_of_not_mem h
      rw [h1]
      show intern (l ++ [a]) a = (l ++ [a], l.length)
      rw [intern, position_append_self h]
  · intro α inst as hnd
    have h := internList_fresh as [] hnd (by intro a _; exact List.not_mem_nil a)
    rw [h]
    simp
  · intro layer feat key v
    show addFeatureAttribute layer feat key v = _
    rw [addFeatureAttribute]
    refine Prod.ext rfl ?_
    show { feat with tags := (feat.tags ++ [(intern layer.keys key).2]) ++
        [(intern layer.values v).2] } =
      { feat with tags := feat.tags ++
        [(intern layer.keys key).2, (intern layer.values v).2] }
    rw [List.append_assoc]
    rfl

/-- C6 witness: the contract applied at concrete dictionaries — a fresh
key is appended at index 1, interning an existing key leaves the
dictionary unchanged and indexes it, and three distinct values give
indices 0, 1, 2. -/
theorem intern_idempotent_order_preserving_witness :
    intern (["k"] : List String) "k2" = (["k", "k2"], 1) ∧
    ((intern (["k", "k2"] : List String) "k2").1 = ["k", "k2"] ∧
      (intern (["k", "k2"] : List String) "k2").1[
        (intern (["k", "k2"] : List String) "k2").2]? = some "k2") ∧
    internList ([] : List String) ["x", "y", "z"] = (["x", "y", "z"], [0, 1, 2]) := by
  refine ⟨intern_idempotent_order_preserving.2.1 ["k"] "k2" (by decide),
    intern_idempotent_order_preserving.1 ["k", "k2"] "k2" (by decide), ?_⟩
  have h := intern_idempotent_order_preserving.2.2.2.1
    (["x", "y", "z"] : List String) (by decide)
  simpa using h

/-! ## C8: attribute column filtering -/

/-- C8 (counterexample): the claim's skip rule differs from the code when
a field is unconfigured. With no geometry-field and no fid-field
configured, a column named `""` holding a non-NULL decodable value is
skipped by the code (which compares against `unwrap_or("")`), while the
claim keeps it. -/
theorem attributes_skip_counterexample : ¬ C8Claim := fun h =>
  absurd (h ⟨"l8", 4096, none, none⟩ [⟨"", .ok (some (.int 1))⟩]) (by decide)

/-- C8 (as amended): `attributes()` returns, in column order, one
(key, value) pair per column, except that columns whose name equals the
configured geometry-field or fid-field name — or the empty string, when
the corresponding field is unconfigured — are skipped, NULL values are
omitted, and decode failures are skipped while the rest of the row is
retained: the code equals `rowAttributesAmended` on every input. -/
theorem attributes_skip_amended :
    ∀ (layer : LayerCfg) (cols : List PgColumn),
      rowAttributes layer cols = rowAttributesAmended layer cols := by
  intro layer cols
  induction cols with
  | nil => rfl
  | cons col rest ih =>
    have hcond : (col.name ≠ layer.geometry_field.getD "" ∧
        col.name ≠ layer.fid_field.getD "") ↔
        (skipNameAmended layer.geometry_field col.name ||
         skipNameAmended layer.fid_field col.name) = false := by
      cases layer.geometry_field <;> cases layer.fid_field <;>
        simp [skipNameAmended, Option.getD]
    rw [rowAttributes, rowAttributesAmended]
    by_cases hc : col.name ≠ layer.geometry_field.getD "" ∧
        col.name ≠ layer.fid_field.getD ""
    · rw [if_pos hc, if_neg (by rw [hcond.mp hc]; exact Bool.false_ne_true)]
      cases col.cell with
      | ok o =>
        cases o with
        | none => exact ih
        | some v => rw [ih]
      | error e => exact ih
    · have htrue : (skipNameAmended layer.geometry_field col.name ||
          skipNameAmended layer.fid_field col.name) = true := by
        cases hab : (skipNameAmended layer.geometry_field col.name ||
            skipNameAmended layer.fid_field col.name) with
        | false => exact absurd (hcond.mpr hab) hc
        | true => rfl
      rw [if_neg hc, if_pos htrue]
      exact ih

/-! ## Tags validity and the attribute-loop invariants -/

theorem tagsValid_mono {nk nv nk' nv' : Nat} {t : List Nat}
    (hk : nk ≤ nk') (hv : nv ≤ nv') (h : TagsValid nk nv t) :
    TagsValid nk' nv' t := by
  induction h with
  | nil => exact .nil
  | pair hk1 hv1 _ ih => exact .pair (lt_of_lt_of_le hk1 hk) (lt_of_lt_of_le hv1 hv) ih

theorem tagsValid_append_pair {nk nv k v : Nat} {t : List Nat}
    (h : TagsValid nk nv t) (hk : k < nk) (hv : v < nv) :
    TagsValid nk nv (t ++ [k, v]) := by
  induction h with
  | nil => exact .pair hk hv .nil
  | pair hk1 hv1 _ ih => exact .pair hk1 hv1 ih

theorem tagsValid_even_and_get {nk nv : Nat} {t : List Nat}
    (h : TagsValid nk nv t) :
    t.length % 2 = 0 ∧
    ∀ i (hi : i < t.length),
      t.get ⟨i, hi⟩ < (if i % 2 = 0 then nk else nv) := by
  induction h with
  | nil => exact ⟨rfl, fun i hi => absurd hi (by simp)⟩
  | @pair k v rest hk hv hrest ih =>
    refine ⟨?_, ?_⟩
    · simp only [List.length_cons]
      omega
    · intro i hi
      match i with
      | 0 => simpa using hk
      | 1 => simpa using hv
      | (j + 2) =>
        have hj : j < rest.length := by
          simp only [List.length_cons] at hi
          omega
        have hrec := ih.2 j hj
        show (k :: v :: rest).get ⟨j + 2, hi⟩ < _
        rw [show (k :: v :: rest).get ⟨j + 2, hi⟩ = rest.get ⟨j, hj⟩ from rfl]
        rw [show (j + 2) % 2 = j % 2 by omega]
        exact hrec

theorem internStep_facts (acc : TileLayer × TileFeature) (a : FeatureAttr) :
    (internStep acc a).1.features = acc.1.features ∧
    (internStep acc a).1.extent = acc.1.extent ∧
    acc.1.keys.length ≤ (internStep acc a).1.keys.length ∧
    acc.1.values.length ≤ (internStep acc a).1.values.length ∧
    (internStep acc a).2.tags = acc.2.tags ++
      [(intern acc.1.keys a.key).2,
       (intern acc.1.values (tileValueOf a.value)).2] ∧
    (intern acc.1.keys a.key).2 < (internStep acc a).1.keys.length ∧
    (intern acc.1.values (tileValueOf a.value)).2 <
      (internStep acc a).1.values.length := by
  refine ⟨rfl, rfl, intern_length_le _ _, intern_length_le _ _, ?_,
    intern_snd_lt _ _, intern_snd_lt _ _⟩
  show (acc.2.tags ++ [(intern acc.1.keys a.key).2]) ++
      [(intern acc.1.values (tileValueOf a.value)).2] = _
  rw [List.append_assoc]
  rfl

theorem internFold_facts :
    ∀ (attrs : List FeatureAttr) (acc : TileLayer × TileFeature),
      (attrs.foldl internStep acc).1.features = acc.1.features ∧
      (attrs.foldl internStep acc).1.extent = acc.1.extent ∧
      acc.1.keys.length ≤ (attrs.foldl internStep acc).1.keys.length ∧
      acc.1.values.length ≤ (attrs.foldl internStep acc).1.values.length ∧
      (TagsValid acc.1.keys.length acc.1.values.length acc.2.tags →
        TagsValid (attrs.foldl internStep acc).1.keys.length
          (attrs.foldl internStep acc).1.values.length
          (attrs.foldl internStep acc).2.tags) := by
  intro attrs
  induction attrs with
  | nil => intro acc; exact ⟨rfl, rfl, le_refl _, le_refl _, id⟩
  | cons a attrs ih =>
    intro acc
    obtain ⟨hf, he, hk, hv, htags, hkidx, hvidx⟩ := internStep_facts acc a
    obtain ⟨hf', he', hk', hv', hvalid'⟩ := ih (internStep acc a)
    rw [List.foldl_cons]
    refine ⟨?_, ?_, ?_, ?_, ?_⟩
    · rw [hf', hf]
    · rw [he', he]
    · exact le_trans hk hk'
    · exact le_trans hv hv'
    · intro hok
      apply hvalid'
      rw [htags]
      exact tagsValid_append_pair (tagsValid_mono hk hv hok) hkidx hvidx

theorem internFold_mem :
    ∀ (attrs : List FeatureAttr) (acc : TileLayer × TileFeature),
      (∀ x, x ∈ acc.1.keys → x ∈ (attrs.foldl internStep acc).1.keys) ∧
      (∀ x, x ∈ acc.1.values → x ∈ (attrs.foldl internStep acc).1.values) ∧
      (∀ a ∈ attrs, a.key ∈ (attrs.foldl internStep acc).1.keys ∧
        tileValueOf a.value ∈ (attrs.foldl internStep acc).1.values) := by
  intro attrs
  induction attrs with
  | nil =>
    intro acc
    exact ⟨fun x hx => hx, fun x hx => hx, fun a ha => absurd ha (List.not_mem_nil a)⟩
  | cons a attrs ih =>
    intro acc
    obtain ⟨ihk, ihv, ihall⟩ := ih (internStep acc a)
    have hkeys : (internStep acc a).1.keys = (intern acc.1.keys a.key).1 := rfl
    have hvals : (internStep acc a).1.values =
      (intern acc.1.values (tileValueOf a.value)).1 := rfl
    rw [List.foldl_cons]
    refine ⟨?_, ?_, ?_⟩
    · intro x hx
      exact ihk x (by rw [hkeys]; exact intern_mem_mono _ hx)
    · intro x hx
      exact ihv x (by rw [hvals]; exact intern_mem_mono _ hx)
    · intro b hb
      rcases List.mem_cons.1 hb with rfl | hb'
      · exact ⟨ihk _ (by rw [hkeys]; exact intern_mem_self _ _),
          ihv _ (by rw [hvals]; exact intern_mem_self _ _)⟩
      · exact ihall b hb'

theorem internAttrs_features (layer : TileLayer) (f : FeatureData) :
    (internAttrs layer f).1.features = layer.features :=
  (internFold_facts f.attributes (layer, mkMvtFeature f.fid)).1

theorem internAttrs_keys_le (layer : TileLayer) (f : FeatureData) :
    layer.keys.length ≤ (internAttrs layer f).1.keys.length :=
  (internFold_facts f.attributes (layer, mkMvtFeature f.fid)).2.2.1

theorem internAttrs_values_le (layer : TileLayer) (f : FeatureData) :
    layer.values.length ≤ (internAttrs layer f).1.values.length :=
  (internFold_facts f.attributes (layer, mkMvtFeature f.fid)).2.2.2.1

theorem internAttrs_tags_valid (layer : TileLayer) (f : FeatureData) :
    TagsValid (internAttrs layer f).1.keys.length
      (internAttrs layer f).1.values.length (internAttrs layer f).2.tags :=
  (internFold_facts f.attributes (layer, mkMvtFeature f.fid)).2.2.2.2 .nil

/-! ## Case equations for `add_feature` -/

theorem addFeature_error (extent : Extent) (reverseY : Bool)
    (layer : TileLayer) (f : FeatureData) (e : String)
    (hg : f.geometry = .error e) :
    addFeature extent reverseY layer f = some (internAttrs layer f).1 := by
  simp only [addFeature, hg]

theorem addFeature_empty (extent : Extent) (reverseY : Bool)
    (layer : TileLayer) (f : FeatureData) (g : GeometryType)
    (hg : f.geometry = .ok g) (hge : g.is_empty = true) :
    addFeature extent reverseY layer f = some (internAttrs layer f).1 := by
  simp only [addFeature, hg, hge, if_true]

theorem addFeature_ok_nonempty (extent : Extent) (reverseY : Bool)
    (layer : TileLayer) (f : FeatureData) (g : GeometryType)
    (hg : f.geometry = .ok g) (hge : g.is_empty = false) :
    addFeature extent reverseY layer f =
      match encodeGeom extent reverseY g (internAttrs layer f).1.extent with
      | none => none
      | some cmds =>
        some { (internAttrs layer f).1 with
          features := (internAttrs layer f).1.features ++
            [{ (internAttrs layer f).2 with
               fieldType := g.mvt_field_type, geometry := cmds }] } := by
  simp only [addFeature, hg, hge, Bool.false_eq_true, if_false]

/-! ## C1: feature presence vs. encoded geometry -/

/-- C1 (counterexample): a feature can be appended with an *empty*
command sequence. `add_feature` tests `geom.is_empty()` on the world
geometry before projection; the ring of `polyG` has three distinct world
points, so the geometry is not empty, yet its last point truncates to the
same pixel as its first, so after closing-point deduplication the
projected ring has 2 points and the encoder drops it — the feature lands
in the layer with `geometry = []`. All coordinates and the source
arithmetic on them are exact in `f64`. -/
theorem add_feature_empty_encoding_counterexample : ¬ C1Claim := by
  intro h
  have hc := h extent0 false (newLayer cfgL) fPoly polyG [] LPoly rfl
    (by decide) (by decide)
  exact (hc.mp (by decide)) rfl

/-- C1 (as amended): a feature handed to `add_feature` is appended to the
layer iff its `geometry()` returned `Ok` and the geometry is not
`is_empty` — emptiness being decided on the world geometry *before*
projection, so a geometry that collapses only at pixel resolution is still
appended (with an empty command sequence); in particular a 1-point
LineString (`is_empty` true) is never present in the feature list. -/
theorem add_feature_append_characterization :
    ∀ (extent : Extent) (reverseY : Bool) (layer : TileLayer)
      (f : FeatureData) (l' : TileLayer),
      addFeature extent reverseY layer f = some l' →
      ((layer.features.length < l'.features.length) ↔
        (∃ g, f.geometry = .ok g ∧ g.is_empty = false)) ∧
      (∀ p, f.geometry = .ok (.lineString ⟨[p]⟩) →
        l'.features = layer.features) := by
  intro extent reverseY layer f l' h
  have hfeat : (internAttrs layer f).1.features = layer.features :=
    internAttrs_features layer f
  cases hg : f.geometry with
  | error e =>
    rw [addFeature_error extent reverseY layer f e hg] at h
    injection h with h
    subst h
    refine ⟨⟨?_, ?_⟩, ?_⟩
    · intro hlt
      rw [hfeat] at hlt
      exact absurd hlt (lt_irrefl _)
    · rintro ⟨g, hgg, -⟩
      exact Except.noConfusion hgg
    · intro p _
      exact hfeat
  | ok g =>
    cases hge : g.is_empty with
    | true =>
      rw [addFeature_empty extent reverseY layer f g hg hge] at h
      injection h with h
      subst h
      refine ⟨⟨?_, ?_⟩, ?_⟩
      · intro hlt
        rw [hfeat] at hlt
        exact absurd hlt (lt_irrefl _)
      · rintro ⟨g', hgg, hge'⟩
        injection hgg with hgg
        subst hgg
        rw [hge] at hge'
        exact Bool.noConfusion hge'
      · intro p _
        exact hfeat
    | false =>
      rw [addFeature_ok_nonempty extent reverseY layer f g hg hge] at h
      cases henc : encodeGeom extent reverseY g (internAttrs layer f).1.extent with
      | none =>
        rw [henc] at h
        exact Option.noConfusion h
      | some cmds =>
        rw [henc] at h
        injection h with h
        subst h
        refine ⟨⟨?_, ?_⟩, ?_⟩
        · intro _
          exact ⟨g, rfl, hge⟩
        · intro _
          show layer.features.length <
            ((internAttrs layer f).1.features ++ [_]).length
          rw [List.length_append, hfeat]
          simp
        · intro p hp
          injection hp with hp
          subst hp
          simp [GeometryType.is_empty] at hge

/-- C1 witness: the amended characterization applied to a 1-point
LineString feature — `add_feature` returns the layer unchanged. -/
theorem add_feature_append_characterization_witness :
    addFeature extent0 false (newLayer cfgL)
      ⟨none, [], .ok (.lineString ⟨[⟨1, 1⟩]⟩)⟩ = some (newLayer cfgL) ∧
    (newLayer cfgL).features = (newLayer cfgL).features := by
  have h := add_feature_append_characterization extent0 false (newLayer cfgL)
    ⟨none, [], .ok (.lineString ⟨[⟨1, 1⟩]⟩)⟩ (newLayer cfgL) (by decide)
  exact ⟨by decide, h.2 ⟨1, 1⟩ rfl⟩

/-! ## C2: GeometryCollection handling -/

/-- C2 (counterexample): a feature whose `geometry()` is a non-empty
`GeometryCollection` passes the `is_empty` check and reaches
`encode_geom`, which panics (`panic!("GeometryCollection not
supported")`), aborting the encoding — modelled as `none` — instead of
excluding the feature and continuing with the rest of the layer. -/
theorem geometry_collection_panic_counterexample : ¬ C2Claim := by
  intro h
  obtain ⟨l', hl, -⟩ := h extent0 false (newLayer cfgL) fGC [.point ⟨0, 0⟩] rfl
  rw [show addFeature extent0 false (newLayer cfgL) fGC = none from by decide] at hl
  exact Option.noConfusion hl

/-- C2 (as amended): a feature whose `geometry()` is a
`GeometryCollection` is never appended to the layer; if the collection is
empty it is skipped silently (`add_feature` returns a layer with the
feature list unchanged and encoding continues), but if it is non-empty
`encode_geom` panics, aborting tile encoding (`none`). -/
theorem geometry_collection_never_appended :
    ∀ (extent : Extent) (reverseY : Bool) (layer : TileLayer)
      (f : FeatureData) (gs : List GeometryType),
      f.geometry = .ok (.geometryCollection gs) →
      (addFeature extent reverseY layer f =
        if gs.isEmpty then some (internAttrs layer f).1 else none) ∧
      (∀ l', addFeature extent reverseY layer f = some l' →
        l'.features = layer.features) := by
  intro extent reverseY layer f gs hg
  cases hgs : gs.isEmpty with
  | true =>
    have hempty : (GeometryType.geometryCollection gs).is_empty = true := hgs
    have heq := addFeature_empty extent reverseY layer f _ hg hempty
    refine ⟨by rw [heq, if_pos rfl], ?_⟩
    intro l' hl
    rw [heq] at hl
    injection hl with hl
    subst hl
    exact internAttrs_features layer f
  | false =>
    have hnonempty : (GeometryType.geometryCollection gs).is_empty = false := hgs
    have heq := addFeature_ok_nonempty extent reverseY layer f _ hg hnonempty
    have hnone : addFeature extent reverseY layer f = none := by
      rw [heq]
      rfl
    refine ⟨by rw [hnone, if_neg (by simp [hgs])], ?_⟩
    intro l' hl
    rw [hnone] at hl
    exact Option.noConfusion hl

/-- C2 witness: the amended statement applied to an empty
`GeometryCollection` feature. -/
theorem geometry_collection_never_appended_witness :
    addFeature extent0 false (newLayer cfgL) fGCe =
      if ([] : List GeometryType).isEmpty
      then some (internAttrs (newLayer cfgL) fGCe).1 else none :=
  (geometry_collection_never_appended extent0 false (newLayer cfgL) fGCe [] rfl).1

/-! ## C7: tags invariant of built layers -/

theorem addFeature_valid (extent : Extent) (reverseY : Bool)
    (layer : TileLayer) (f : FeatureData) (l' : TileLayer)
    (hval : layerValid layer)
    (h : addFeature extent reverseY layer f = some l') : layerValid l' := by
  have hfeat : (internAttrs layer f).1.features = layer.features :=
    internAttrs_features layer f
  have hkle := internAttrs_keys_le layer f
  have hvle := internAttrs_values_le layer f
  have hmono : layerValid (internAttrs layer f).1 := by
    intro ft hft
    rw [hfeat] at hft
    exact tagsValid_mono hkle hvle (hval ft hft)
  cases hg : f.geometry with
  | error e =>
    rw [addFeature_error extent reverseY layer f e hg] at h
    injection h with h
    subst h
    exact hmono
  | ok g =>
    cases hge : g.is_empty with
    | true =>
      rw [addFeature_empty extent reverseY layer f g hg hge] at h
      injection h with h
      subst h
      exact hmono
    | false =>
      rw [addFeature_ok_nonempty extent reverseY layer f g hg hge] at h
      cases henc : encodeGeom extent reverseY g (internAttrs layer f).1.extent with
      | none =>
        rw [henc] at h
        exact Option.noConfusion h
      | some cmds =>
        rw [henc] at h
        injection h with h
        subst h
        intro ft hft
        rcases List.mem_append.1 hft with hft | hft
        · exact hmono ft hft
        · rw [List.mem_singleton.1 hft]
          exact internAttrs_tags_valid layer f

theorem runAddFeatures_valid (extent : Extent) (reverseY : Bool) :
    ∀ (fs : List FeatureData) (L0 L : TileLayer),
      layerValid L0 → runAddFeatures extent reverseY L0 fs = some L →
      layerValid L := by
  intro fs
  induction fs with
  | nil =>
    intro L0 L h0 h
    rw [runAddFeatures] at h
    injection h with h
    subst h
    exact h0
  | cons f fs ih =>
    intro L0 L h0 h
    rw [runAddFeatures] at h
    cases hadd : addFeature extent reverseY L0 f with
    | none =>
      rw [hadd] at h
      exact Option.noConfusion h
    | some L1 =>
      rw [hadd] at h
      exact ih L1 L (addFeature_valid extent reverseY L0 f L1 h0 hadd) h

/-- C7: in every layer built from `new_layer` by a sequence of
`add_feature` calls, every contained feature's tags sequence has even
length, and each entry — key index at even positions, value index at odd
positions — indexes validly into that same layer's keys and values. -/
theorem layer_tags_invariant :
    ∀ (extent : Extent) (reverseY : Bool) (cfg : LayerCfg)
      (fs : List FeatureData) (L : TileLayer),
      runAddFeatures extent reverseY (newLayer cfg) fs = some L →
      ∀ ft, ft ∈ L.features →
        ft.tags.length % 2 = 0 ∧
        ∀ i (hi : i < ft.tags.length),
          ft.tags.get ⟨i, hi⟩ <
            (if i % 2 = 0 then L.keys.length else L.values.length) := by
  intro extent reverseY cfg fs L h ft hft
  have h0 : layerValid (newLayer cfg) := by
    intro ft' hft'
    simp [newLayer] at hft'
  exact tagsValid_even_and_get
    (runAddFeatures_valid extent reverseY fs (newLayer cfg) L h0 h ft hft)

/-- C7 witness: the invariant applied to a concretely built layer holding
one feature with one interned attribute — its tags `[0, 0]` have even
length. -/
theorem layer_tags_invariant_witness :
    (⟨some 7, [0, 0], .pointType, [9, 4096, 4096]⟩ : TileFeature).tags.length % 2 = 0 := by
  have h := layer_tags_invariant extent0 false cfgL
    [⟨some 7, [⟨"name", .string "a"⟩], .ok (.point ⟨2048, 2048⟩)⟩]
    { version := 2, name := "l", extent := 4096, keys := ["name"],
      values := [.string "a"],
      features := [⟨some 7, [0, 0], .pointType, [9, 4096, 4096]⟩] }
    (by decide) ⟨some 7, [0, 0], .pointType, [9, 4096, 4096]⟩ (by decide)
  exact h.1

/-! ## C10: interning happens before the geometry check -/

/-- C10: when a feature is dropped (its `geometry()` errored, or its
geometry is `is_empty`), `add_feature` still returns the layer produced by
the attribute loop: the feature list is unchanged, but every attribute key
and value of the dropped feature has been interned and remains in the
layer's dictionaries — the drop does not roll interning back. -/
theorem dropped_feature_keeps_interned :
    ∀ (extent : Extent) (reverseY : Bool) (layer : TileLayer)
      (f : FeatureData),
      (∀ g, f.geometry = .ok g → g.is_empty = true) →
      addFeature extent reverseY layer f = some (internAttrs layer f).1 ∧
      (internAttrs layer f).1.features = layer.features ∧
      ∀ a, a ∈ f.attributes →
        a.key ∈ (internAttrs layer f).1.keys ∧
        tileValueOf a.value ∈ (internAttrs layer f).1.values := by
  intro extent reverseY layer f hdrop
  refine ⟨?_, internAttrs_features layer f, ?_⟩
  · cases hg : f.geometry with
    | error e => exact addFeature_error extent reverseY layer f e hg
    | ok g => exact addFeature_empty extent reverseY layer f g hg (hdrop g hg)
  · intro a ha
    exact (internFold_mem f.attributes (layer, mkMvtFeature f.fid)).2.2 a ha

/-- C10 witness: a feature with attribute `("name", "x")` whose geometry
fetch failed is dropped, yet `"name"` remains interned in the layer's key
dictionary. -/
theorem dropped_feature_keeps_interned_witness :
    addFeature extent0 false (newLayer cfgL) f10 =
      some (internAttrs (newLayer cfgL) f10).1 ∧
    "name" ∈ (internAttrs (newLayer cfgL) f10).1.keys := by
  have h := dropped_feature_keeps_interned extent0 false (newLayer cfgL) f10
    (fun g hg => absurd hg (by simp [f10]))
  exact ⟨h.1, (h.2.2 ⟨"name", .string "x"⟩ (by simp [f10])).1⟩
